import Mathlib

/-!
Verification development for the `roles` scanner: a shallow embedding of the
pure core of the program (ARN parsing, the durable-cache map operations, the
candidate expander, the list-file reader, the probe-result classifier and the
two-phase scan driver), together with theorems settling the specification
claims against it.

Go strings are embedded as `List Char`; Go maps as association lists with
update-or-append assignment, which models assignment semantics exactly (map
iteration order, which Go leaves unspecified, is fixed to insertion order).
-/

set_option maxRecDepth 10000

namespace Roles

/-- Go strings are modelled as lists of characters. -/
abbrev Str := List Char

/-- Splits `s` at the first occurrence of `sep`: returns the part before the
separator and the part after it, or `none` when `sep` does not occur. -/
def breakAtC (sep : Char) : Str → Option (Str × Str)
  | [] => none
  | c :: rest =>
    if c = sep then some ([], rest)
    else (breakAtC sep rest).map (fun p => (c :: p.1, p.2))

/-- Go `strings.SplitN(s, sep, n)` for a one-character separator. -/
def splitNC (sep : Char) : Nat → Str → List Str
  | 0, _ => []
  | 1, s => [s]
  | Nat.succ (Nat.succ n), s =>
    match breakAtC sep s with
    | none => [s]
    | some (pre, post) => pre :: splitNC sep (Nat.succ n) post

/-- Accumulator worker for `splitOnC`; `acc` holds the reversed current
section. -/
def splitOnCAux (sep : Char) : Str → Str → List Str
  | [], acc => [acc.reverse]
  | c :: rest, acc =>
    if c = sep then acc.reverse :: splitOnCAux sep rest []
    else splitOnCAux sep rest (c :: acc)

/-- Go `strings.Split(s, sep)` for a one-character separator. -/
def splitOnC (sep : Char) (s : Str) : List Str :=
  splitOnCAux sep s []

/-- Go `strings.Join(parts, sep)` for a one-character separator. -/
def joinC (sep : Char) : List Str → Str
  | [] => []
  | [s] => s
  | s :: t :: rest => s ++ sep :: joinC sep (t :: rest)

/-- Go `strings.HasPrefix(s, p)`. -/
def startsWithC : Str → Str → Bool
  | _, [] => true
  | [], _ :: _ => false
  | c :: s, p :: ps => c = p && startsWithC s ps

/-- The sections of a parsed AWS ARN, as in the AWS SDK `arn` package:
`arn:partition:service:region:account-id:resource`. -/
structure GoArn where
  partition : Str
  service   : Str
  region    : Str
  accountID : Str
  resource  : Str
deriving DecidableEq, Repr

/-- The AWS SDK `arn.Parse`: requires the literal `arn:` lead-in, splits the
string around the first five colons and requires all six sections to be
present; no further validation is performed. -/
def arnParse (s : Str) : Option GoArn :=
  if startsWithC s ("arn:".data) then
    match splitNC ':' 6 s with
    | [_, a1, a2, a3, a4, a5] => some ⟨a1, a2, a3, a4, a5⟩
    | _ => none
  else none

/-- Go `utils.Info`: per-candidate provenance comment and existence flag.
(The Go field `Exists` is called `exist` here as `exists` is a Lean keyword.) -/
structure Info where
  comment : Str
  exist   : Bool
deriving DecidableEq, Repr

/-- Go `scanner.PrincipalStatus`. -/
inductive PrincipalStatus where
  | PrincipalUnknown
  | PrincipalExists
  | PrincipalDoesNotExist
deriving DecidableEq, Repr

export PrincipalStatus (PrincipalUnknown PrincipalExists PrincipalDoesNotExist)

/-- Association-list lookup, modelling a Go map read `m[k]`. -/
def lookupA {β : Type} : List (Str × β) → Str → Option β
  | [], _ => none
  | (k, v) :: rest, key => if k = key then some v else lookupA rest key

/-- Association-list assignment, modelling a Go map write `m[k] = v`. -/
def setA {β : Type} : List (Str × β) → Str → β → List (Str × β)
  | [], key, v => [(key, v)]
  | (k, w) :: rest, key, v =>
    if k = key then (k, v) :: rest else (k, w) :: setA rest key v

/-- The in-memory document of `scanner.Storage`: the outer map is keyed by the
strings used in `Storage.Set` (the parsed account IDs), the inner maps by
principal ARN. -/
abbrev StorageData := List (Str × List (Str × Info))

/-- Go `Storage.Set` from `pkg/scanner/storage.go`: parses the ARN (returning the
error without touching the document when parsing fails) and writes the info
under `data[parsed.AccountID][principalArn]`. The first component models the
returned `error` value. -/
def storageSet (data : StorageData) (principalArn : Str) (info : Info) :
    Option Str × StorageData :=
  match arnParse principalArn with
  | none => (some ("parsing arn".data), data)
  | some parsed =>
    let acct := (lookupA data parsed.accountID).getD []
    (none, setA data parsed.accountID (setA acct principalArn info))

/-- Go `Storage.GetStatus` from `pkg/scanner/storage.go`: looks up
`data[principalArn]` in the outer map and then `[principalArn]` in the inner
map, classifying the stored boolean. (The Go `error` return is always nil and
is omitted.) -/
def storageGetStatus (data : StorageData) (principalArn : Str) :
    PrincipalStatus × Option Info :=
  match lookupA data principalArn with
  | none => (PrincipalUnknown, none)
  | some accountData =>
    match lookupA accountData principalArn with
    | none => (PrincipalUnknown, none)
    | some info =>
      if info.exist then (PrincipalExists, some info)
      else (PrincipalDoesNotExist, some info)

/-- Go `strings.ToLower` restricted to ASCII (the only characters involved in
the probe-error matching). -/
def toLowerC (s : Str) : Str := s.map Char.toLower

/-- Go `strings.Contains(s, sub)`. -/
def hasSubstr : Str → Str → Bool
  | [], sub => startsWithC [] sub
  | c :: rest, sub => startsWithC (c :: rest) sub || hasSubstr rest sub

/-- The observable outcome of the `PutAccessPointPolicy` call inside
`AccessPoint.ScanArn`: success, a failure whose chain matches
`smithy.GenericAPIError` (with its code and message), or any other failure. -/
inductive ApiOutcome where
  | success
  | genericApiError (code message : Str)
  | otherFailure
deriving DecidableEq, Repr

/-- The result classification of `AccessPoint.ScanArn`
(`pkg/plugins/access_point.go`): success means the principal exists; a
`MalformedPolicy` generic API error whose lowercased message contains
`invalid principal` means it does not; every other failure is returned as a
probe error. (The `json.Marshal` of the fixed policy document cannot fail and
is not modelled.) The second component models the returned `error`. -/
def accessPointScanArn (outcome : ApiOutcome) : Bool × Option Str :=
  match outcome with
  | .success => (true, none)
  | .genericApiError code msg =>
    if code = ("MalformedPolicy".data : Str) then
      if hasSubstr (toLowerC msg) ("invalid principal".data) then (false, none)
      else (false, some ("updating policy".data))
    else (false, some ("updating policy".data))
  | .otherFailure => (false, some ("updating policy".data))

/-- Case-insensitive containment as the spec words it: the message,
case-insensitively, contains `invalid principal`. -/
def caseInsensitiveHas (msg needle : Str) : Bool :=
  hasSubstr (toLowerC msg) (toLowerC needle)

/-- The probe classification exactly as the claim words it: success means
exists; a generic `MalformedPolicy` API error whose message case-insensitively
contains `invalid principal` means the principal does not exist, with no
error; everything else is a non-nil probe error. -/
def specProbeClassify (outcome : ApiOutcome) : Bool × Option Str :=
  match outcome with
  | .success => (true, none)
  | .genericApiError code msg =>
    if code = ("MalformedPolicy".data : Str) &&
        caseInsensitiveHas msg ("invalid principal".data) then (false, none)
    else (false, some ("updating policy".data))
  | .otherFailure => (false, some ("updating policy".data))

/-- Go bufio dropCR: drops one trailing carriage return. -/
def dropTrailingCR (l : Str) : Str :=
  if l.getLast? = some '\r' then l.dropLast else l

/-- Go `bufio.ScanLines` applied to a whole in-memory text: tokens are the
newline-separated lines, a trailing carriage return of every line is dropped,
a final newline does not produce an extra empty token, and empty input yields
no tokens. -/
def scanLines (text : Str) : List Str :=
  if text = [] then []
  else
    let parts := splitOnC '\n' text
    (if parts.getLast? = some ([] : Str) then parts.dropLast else parts).map dropTrailingCR

/-- The whitespace set of Go `unicode.IsSpace`, restricted to ASCII. -/
def isSpaceGo (c : Char) : Bool :=
  c = ' ' || c = '\t' || c = '\n' || c = '\x0b' || c = '\x0c' || c = '\r'

def trimLeftSpace : Str → Str
  | [] => []
  | c :: rest => if isSpaceGo c then trimLeftSpace rest else c :: rest

/-- Go `strings.TrimSpace` (ASCII whitespace). -/
def trimSpace (s : Str) : Str :=
  (trimLeftSpace (trimLeftSpace s).reverse).reverse

/-- Go `utils.GetInputFromPath` (`pkg/utils/main.go`): for each scanned line,
split on every `#`, trim the part before the first `#` as the value, skip the
line when the value is empty, and store the remaining parts re-joined with
`#` as the comment. -/
def getInputFromPath (text : Str) : List (Str × Info) :=
  (scanLines text).foldl
    (fun resp line =>
      let p := splitOnC '#' line
      let value := trimSpace (p.headD [])
      if value = [] then resp
      else setA resp value ⟨joinC '#' p.tail, false⟩)
    []

/-- The prefix of `l` before the first occurrence of `sep` (all of `l` when
`sep` does not occur). -/
def takeUntilC (sep : Char) : Str → Str
  | [] => []
  | c :: rest => if c = sep then [] else c :: takeUntilC sep rest

/-- The remainder of `l` after the first occurrence of `sep` (empty when `sep`
does not occur), preserved verbatim. -/
def afterFirstC (sep : Char) : Str → Str
  | [] => []
  | c :: rest => if c = sep then rest else afterFirstC sep rest

/-- The list-file grammar exactly as the claim words it: each line is split at
the first `#` into a value (whitespace-trimmed) and a comment (the remainder
after the first `#`, verbatim); lines whose trimmed value is empty are
skipped; the result maps values to their comments. -/
def specListGrammar (text : Str) : List (Str × Info) :=
  (scanLines text).foldl
    (fun resp line =>
      let value := trimSpace (takeUntilC '#' line)
      if value = [] then resp
      else setA resp value ⟨afterFirstC '#' line, false⟩)
    []

/-- The template opening delimiter of Go `text/template`. -/
def openDelim : Str := ['\x7b', '\x7b']

/-- A lexed token of a role template: a literal character or the inside of a
delimited action. -/
inductive TmplTok where
  | lit (c : Char)
  | action (a : Str)
deriving DecidableEq, Repr

/-- The lexer of Go `text/template` restricted to the template dialect of the
role lists: text is literal until the opening delimiter, an action runs to the
closing delimiter, and end-of-input inside an action is a parse error
(`unclosed action`). `inAction` is the lexer mode and `acc` the reversed body
of the action being read. -/
def tmplTokenize : Str → Bool → Str → Option (List TmplTok)
  | [], inAction, _ => if inAction then none else some []
  | [_], true, _ => none
  | [c1], false, _ => some [TmplTok.lit c1]
  | c1 :: c2 :: rest2, true, acc =>
    if c1 = '\x7d' && c2 = '\x7d' then
      (tmplTokenize rest2 false []).map (fun ts => TmplTok.action acc.reverse :: ts)
    else tmplTokenize (c2 :: rest2) true (c1 :: acc)
  | c1 :: c2 :: rest2, false, _ =>
    if c1 = '\x7b' && c2 = '\x7b' then tmplTokenize rest2 true []
    else (tmplTokenize (c2 :: rest2) false []).map (fun ts => TmplTok.lit c1 :: ts)

/-- Evaluation of one token against the `roleData` struct passed to
`tmpl.Execute`: only the field accesses `.AccountId` and `.Region` resolve
(spaces around the action are allowed); any other action — in particular a
bare identifier such as `AccountId`, which `text/template` resolves as an
undefined function — is an error. -/
def execTmplTok (account region : Str) : TmplTok → Option Str
  | .lit c => some [c]
  | .action a =>
    let t := trimSpace a
    if t = (".AccountId".data : Str) then some account
    else if t = (".Region".data : Str) then some region
    else none

def renderToks (account region : Str) : List TmplTok → Option Str
  | [] => some []
  | t :: ts =>
    match execTmplTok account region t, renderToks account region ts with
    | some s, some r => some (s ++ r)
    | _, _ => none

/-- Go `template.New(role).Parse(role)` followed by `tmpl.Execute` with
`roleData{AccountId: account, Region: region}`: `none` models a non-nil
template error (parse or execute). -/
def renderTmpl (role account region : Str) : Option Str :=
  (tmplTokenize role false []).bind (renderToks account region)

/-- Go `arn.GetArn` (`pkg/arn/main.go`): renders the role template and embeds the
result in `arn:aws:iam::<account>:role/<rendered>`. `none` models the non-nil
error return (Go also returns a partially formatted string alongside the
error; every caller treats a non-nil error as fatal and discards it). -/
def GetArn (role account region : Str) : Option Str :=
  (renderTmpl role account region).map
    (fun rendered => "arn:aws:iam::".data ++ account ++ ":role/".data ++ rendered)

/-- Go `utils.GetRootArn`. -/
def GetRootArn (account : Str) : Str :=
  "arn:aws:iam::".data ++ account ++ ":root".data

/-- The comment attached to an expanded role candidate:
`accountComment - roleComment`. -/
def combineComment (accountInfo roleInfo : Info) : Info :=
  ⟨accountInfo.comment ++ " - ".data ++ roleInfo.comment, false⟩

/-- The result-building loop of `arn.GetArns` (`pkg/arn/main.go`): for every
account, assign the root ARN its account info, then for every (template,
region) assign the expanded ARN the combined comment; a map assignment
overwrites any previous entry for the same ARN. `none` models the fatal
`GetArn` error return. -/
def GetArns (accounts roles : List (Str × Info)) (regions : List Str) :
    Option (List (Str × Info)) :=
  accounts.foldlM
    (fun result acct =>
      roles.foldlM
        (fun r2 role =>
          regions.foldlM
            (fun r3 region =>
              (GetArn role.1 acct.1 region).map (fun arn =>
                setA r3 arn (combineComment acct.2 role.2)))
            r2)
        (setA result (GetRootArn acct.1) acct.2))
    []

/-- The same iteration as `GetArns`, recording the sequence of map
assignments (key, value) in execution order instead of performing them. -/
def getArnsWrites (accounts roles : List (Str × Info)) (regions : List Str) :
    Option (List (Str × Info)) :=
  accounts.foldlM
    (fun ws acct =>
      roles.foldlM
        (fun ws2 role =>
          regions.foldlM
            (fun ws3 region =>
              (GetArn role.1 acct.1 region).map (fun arn =>
                ws3 ++ [(arn, combineComment acct.2 role.2)]))
            ws2)
        (ws ++ [(GetRootArn acct.1, acct.2)]))
    []

/-- Replaying a write sequence into an association map. -/
def applyWrites (m : List (Str × Info)) (ws : List (Str × Info)) : List (Str × Info) :=
  ws.foldl (fun acc w => setA acc w.1 w.2) m

/-- The value stored by the last write for key `k` in the sequence `ws`. -/
def lastWrite (ws : List (Str × Info)) (k : Str) : Option Info :=
  (ws.reverse.find? (fun w => decide (w.1 = k))).map Prod.snd

/-- The expansion result on the `C7` counterexample input. -/
def c7Map : List (Str × Info) :=
  [(("arn:aws:iam::111111111111:root".data : Str), ⟨"A".data, false⟩),
   (("arn:aws:iam::111111111111:role/111111111111".data : Str), ⟨"A - T2".data, false⟩)]

/-- The write sequence on the `C7` counterexample input. -/
def c7Writes : List (Str × Info) :=
  [(("arn:aws:iam::111111111111:root".data : Str), ⟨"A".data, false⟩),
   (("arn:aws:iam::111111111111:role/111111111111".data : Str), ⟨"A - T1".data, false⟩),
   (("arn:aws:iam::111111111111:role/111111111111".data : Str), ⟨"A - T2".data, false⟩)]

/-- One iteration of the `RootArnMap` loop (current version,
`pkg/scanner/main.go`): parse the ARN (`none` models the fatal
`ctx.Error.Fatalf` on a parse failure), make sure the account's root ARN has
an entry, and append the ARN to that entry when its resource is not `root`. -/
def rootArnStep (result : List (Str × List Str)) (principalArn : Str) :
    Option (List (Str × List Str)) :=
  (arnParse principalArn).map (fun parsed =>
    let rootArn := GetRootArn parsed.accountID
    let result1 :=
      if (lookupA result rootArn).isSome then result else result ++ [(rootArn, [])]
    if parsed.resource = ("root".data : Str) then result1
    else setA result1 rootArn ((lookupA result1 rootArn).getD [] ++ [principalArn]))

/-- Go `scanner.RootArnMap`. -/
def RootArnMap (principalArns : List Str) : Option (List (Str × List Str)) :=
  principalArns.foldlM rootArnStep []

/-- The claim's membership predicate: a non-root input ARN whose literal
(parsed) account ID equals `acc`. -/
def isMemberOf (acc : Str) (x : Str) : Bool :=
  match arnParse x with
  | some q => decide (q.accountID = acc) && !(decide (q.resource = ("root".data : Str)))
  | none => false

/-- The claim's expected member list for `root(acc)`: exactly the non-root
input ARNs whose literal account ID equals `acc`, in input order. -/
def rootMembers (acc : Str) (arns : List Str) : List Str :=
  arns.filter (isMemberOf acc)

/-- The grouping invariant of `RootArnMap`: the keys are exactly the root
ARNs of the parsed account IDs of the processed input, and every key's value
is exactly the non-root processed ARNs of that literal account ID. -/
abbrev RootInv (processed : List Str) (state : List (Str × List Str)) : Prop :=
  (∀ r : Str, (lookupA state r).isSome = true ↔
      ∃ a ∈ processed, ∃ p, arnParse a = some p ∧ r = GetRootArn p.accountID) ∧
  (∀ acc : Str, ∀ l, lookupA state (GetRootArn acc) = some l →
      l = rootMembers acc processed) ∧
  (state.map Prod.fst).Nodup

/-- Modelled from the spec: the `Storage` variant the current
`Scanner.ScanArns` calls (status-valued `GetStatus`, boolean `Set`) is not
among the source files — only its callers are. Per the spec it is a pure
in-memory map from principal ARN to a boolean existence outcome:
`GetStatus(arn) → {unknown, exists, absent}` is a lookup and
`Set(arn, exists)` a write. -/
abbrev CacheMap := List (Str × Bool)

/-- Modelled from the spec: `GetStatus` as a pure lookup. -/
def cacheGetStatus (c : CacheMap) (arn : Str) : PrincipalStatus :=
  match lookupA c arn with
  | none => PrincipalUnknown
  | some true => PrincipalExists
  | some false => PrincipalDoesNotExist

/-- Modelled from the spec: `Set` as an in-memory write. -/
def cacheSet (c : CacheMap) (arn : Str) (e : Bool) : CacheMap :=
  setA c arn e

/-- Phase-1 pre-pass of `Scanner.ScanArns` (`pkg/scanner/main.go`, current
version): for every root entry of the root-ARN map, an `absent` cache status
yields `(root, false)` and drops the members, `exists` admits the members and
yields `(root, true)`, `unknown` queues the root for scanning. Returns
(yielded pairs, roots to scan, admitted member ARNs) in iteration order. -/
def scanPhase1Pre (cache : CacheMap) :
    List (Str × List Str) → List (Str × Bool) × List Str × List Str
  | [] => ([], [], [])
  | e :: rest =>
    let r := scanPhase1Pre cache rest
    match cacheGetStatus cache e.1 with
    | PrincipalDoesNotExist => ((e.1, false) :: r.1, r.2.1, r.2.2)
    | PrincipalExists => ((e.1, true) :: r.1, r.2.1, e.2 ++ r.2.2)
    | PrincipalUnknown => (r.1, e.1 :: r.2.1, r.2.2)

/-- Phase-1 probe loop of `Scanner.ScanArns`: every queued root is handed to
a plugin `ScanArn` (`probe`; `none` is a plugin error — logged, no result and
no cache write); a root observed to exist admits its members; every observed
result is written to the cache and yielded. The concurrent plugin fan-out of
`scanWithPlugins` is serialised in input order. Returns (yielded pairs,
admitted member ARNs, updated cache). -/
def scanPhase1Scan (probe : Str → Option Bool) (m : List (Str × List Str)) :
    CacheMap → List Str → List (Str × Bool) × List Str × CacheMap
  | cache, [] => ([], [], cache)
  | cache, root :: rest =>
    match probe root with
    | none => scanPhase1Scan probe m cache rest
    | some e =>
      let r := scanPhase1Scan probe m (cacheSet cache root e) rest
      ((root, e) :: r.1, (if e then (lookupA m root).getD [] else []) ++ r.2.1, r.2.2)

/-- Phase-2 pre-pass of `Scanner.ScanArns`: admitted member ARNs with a known
cache status are yielded directly; only `unknown` ones are queued. Returns
(yielded pairs, member ARNs to scan). -/
def scanPhase2Pre (cache : CacheMap) : List Str → List (Str × Bool) × List Str
  | [] => ([], [])
  | arn :: rest =>
    let r := scanPhase2Pre cache rest
    match cacheGetStatus cache arn with
    | PrincipalUnknown => (r.1, arn :: r.2)
    | PrincipalExists => ((arn, true) :: r.1, r.2)
    | PrincipalDoesNotExist => ((arn, false) :: r.1, r.2)

/-- Phase-2 probe loop of `Scanner.ScanArns`: every queued member ARN is
probed; results are cached and yielded. -/
def scanPhase2Scan (probe : Str → Option Bool) :
    CacheMap → List Str → List (Str × Bool) × CacheMap
  | cache, [] => ([], cache)
  | cache, arn :: rest =>
    match probe arn with
    | none => scanPhase2Scan probe cache rest
    | some e =>
      let r := scanPhase2Scan probe (cacheSet cache arn e) rest
      ((arn, e) :: r.1, r.2)

/-- The observable outcome of a full `ScanArns` run: the yielded
`(arn, exists)` pairs, the ARNs handed to plugin `ScanArn` calls, and the
final cache. -/
structure ScanOutcome where
  yielded : List (Str × Bool)
  probed  : List Str
  cache   : CacheMap
deriving DecidableEq, Repr

/-- Go `Scanner.ScanArns` (`pkg/scanner/main.go`, current version): build the
root-ARN map (`none` models the fatal parse error), run the phase-1 pre-pass
(skipped under `force`, which queues every root), probe the queued roots,
collect the admitted member ARNs, run the phase-2 pre-pass (skipped under
`force`), and probe the queued members. The consumer is assumed to consume
the full iterator (`yield` never stops early). -/
def ScanArns (force : Bool) (probe : Str → Option Bool) (cache : CacheMap)
    (principalArns : List Str) : Option ScanOutcome :=
  (RootArnMap principalArns).map (fun m =>
    let pre1 := if force then (([] : List (Str × Bool)), m.map Prod.fst, ([] : List Str))
      else scanPhase1Pre cache m
    let scan1 := scanPhase1Scan probe m cache pre1.2.1
    let allAcc := pre1.2.2 ++ scan1.2.1
    let pre2 := if force then (([] : List (Str × Bool)), allAcc)
      else scanPhase2Pre scan1.2.2 allAcc
    let scan2 := scanPhase2Scan probe scan1.2.2 pre2.2
    { yielded := pre1.1 ++ scan1.1 ++ pre2.1 ++ scan2.1,
      probed := pre1.2.1 ++ pre2.2,
      cache := scan2.2 })

/-- The root-ARN map of the `C2` witness run. -/
def c2Map : List (Str × List Str) :=
  [(("arn:aws:iam::111111111111:root".data : Str),
     [("arn:aws:iam::111111111111:role/admin".data : Str)]),
   (("arn:aws:iam::222222222222:root".data : Str),
     [("arn:aws:iam::222222222222:role/admin".data : Str)])]

/-- The outcome of the `C2` witness run. -/
def c2Out : ScanOutcome :=
  { yielded := [(("arn:aws:iam::111111111111:root".data : Str), false),
                (("arn:aws:iam::222222222222:root".data : Str), true),
                (("arn:aws:iam::222222222222:role/admin".data : Str), true)],
    probed := [("arn:aws:iam::222222222222:root".data : Str),
               ("arn:aws:iam::222222222222:role/admin".data : Str)],
    cache := [(("arn:aws:iam::111111111111:root".data : Str), false),
              (("arn:aws:iam::222222222222:root".data : Str), true),
              (("arn:aws:iam::222222222222:role/admin".data : Str), true)] }

/-- An output destination of the process. -/
inductive OutStream where
  | stdout
  | stderr
  | discard
deriving DecidableEq, Repr

/-- The destinations of the three log streams of a `utils.Context`. -/
structure CtxStreams where
  errorS : OutStream
  infoS  : OutStream
  debugS : OutStream
deriving DecidableEq, Repr

/-- Go `utils.NewContext` (`pkg/utils/main.go`): the error logger writes to
`os.Stderr`, the info logger to `os.Stdout`, and the debug logger — first
pointed at `os.Stdout` — is immediately redirected to `io.Discard`. -/
def NewContextStreams : CtxStreams :=
  { errorS := OutStream.stderr, infoS := OutStream.stdout, debugS := OutStream.discard }

/-- The log-stream wiring after `main`: with `-debug`, the debug logger is
re-pointed at `os.Stderr`; nothing else changes (`SetLoggingLevel` is never
called on the scan path). -/
def mainStreams (debugFlag : Bool) : CtxStreams :=
  if debugFlag then { NewContextStreams with debugS := OutStream.stderr }
  else NewContextStreams

/-- The stdout result lines of `cmd.Run` (`pkg/cmd/setup.go`): for each
yielded `(arn, exists)` pair with `exists` true,
`fmt.Println(arn, "#", comment)` prints `<arn> # <comment>`, the comment
taken from the ScanSet (a missing entry gives the zero `Info`). -/
def runOutputLines (scanData : List (Str × Info)) (results : List (Str × Bool)) :
    List Str :=
  results.filterMap (fun r =>
    if r.2 then
      some (r.1 ++ " # ".data ++ ((lookupA scanData r.1).getD ⟨[], false⟩).comment)
    else none)

/-- Modelled from the spec: the token-bucket `rateLimiter` implementation is
not among the source files — only its unit test is. Per the spec it is a
refillable bucket of capacity `N`: every one-second epoch the refill task,
unless its context has been cancelled, makes non-blocking inserts that top
the bucket up to capacity (excess tokens are discarded, no carry-over), and
after cancellation it produces nothing; consumers take tokens out of the
bucket. -/
structure BucketState where
  tokens    : Nat
  cancelled : Bool
deriving DecidableEq, Repr

/-- Modelled from the spec: one one-second epoch — the refill (skipped after
cancellation) tops the bucket up to `n`, then the consumer takes at most the
available tokens. Returns the new state, the tokens the refill produced and
the tokens the consumer received. -/
def rateEpoch (n : Nat) (s : BucketState) (req : Nat) : BucketState × Nat × Nat :=
  let produced := if s.cancelled then 0 else n - s.tokens
  let filled := s.tokens + produced
  let taken := min req filled
  ({ tokens := filled - taken, cancelled := s.cancelled }, produced, taken)

/-- Modelled from the spec: context cancellation stops the refill task. -/
def cancelBucket (s : BucketState) : BucketState :=
  { s with cancelled := true }

/-- A run of the rate limiter over a trace of per-epoch consumer demands,
with the context cancelled from epoch `cancelAt` on; `i` is the index of the
current epoch. Returns the per-epoch (produced, received) pairs. -/
def rateRun (n cancelAt : Nat) : BucketState → Nat → List Nat → List (Nat × Nat)
  | _, _, [] => []
  | s, i, req :: rest =>
    let s1 := if cancelAt ≤ i then cancelBucket s else s
    let step := rateEpoch n s1 req
    (step.2.1, step.2.2) :: rateRun n cancelAt step.1 (i + 1) rest

theorem breakAtC_some_length {sep : Char} :
    ∀ {s pre post : Str}, breakAtC sep s = some (pre, post) → post.length < s.length := by
  intro s
  induction s with
  | nil => intro pre post h; simp [breakAtC] at h
  | cons c rest ih =>
    intro pre post h
    by_cases hc : c = sep
    · simp [breakAtC, hc] at h
      simp [h.2.symm]
    · simp only [breakAtC, if_neg hc, Option.map_eq_some'] at h
      obtain ⟨⟨p, q⟩, hpq, hEq⟩ := h
      have hq : q = post := by
        have := congrArg Prod.snd hEq
        simpa using this
      subst hq
      have := ih hpq
      simp
      omega

theorem lookupA_setA_self {β : Type} (m : List (Str × β)) (k : Str) (v : β) :
    lookupA (setA m k v) k = some v := by
  induction m with
  | nil => simp [setA, lookupA]
  | cons hd tl ih =>
    obtain ⟨k0, v0⟩ := hd
    by_cases hk : k0 = k
    · simp [setA, hk, lookupA]
    · simp [setA, hk, lookupA, ih]

theorem lookupA_setA_ne {β : Type} (m : List (Str × β)) {k key : Str} (v : β)
    (h : k ≠ key) : lookupA (setA m k v) key = lookupA m key := by
  induction m with
  | nil => simp [setA, lookupA, h]
  | cons hd tl ih =>
    obtain ⟨k0, v0⟩ := hd
    by_cases hk : k0 = k
    · subst hk
      simp [setA, lookupA, h, ih]
    · simp [setA, hk, lookupA, ih]

theorem breakAtC_pre_no_sep {sep : Char} :
    ∀ {s pre post : Str}, breakAtC sep s = some (pre, post) → sep ∉ pre := by
  intro s
  induction s with
  | nil => intro pre post h; simp [breakAtC] at h
  | cons c rest ih =>
    intro pre post h
    by_cases hc : c = sep
    · simp [breakAtC, hc] at h
      simp [h.1]
    · simp only [breakAtC, if_neg hc, Option.map_eq_some'] at h
      obtain ⟨⟨p, q⟩, hpq, hEq⟩ := h
      have hp : c :: p = pre := by
        have := congrArg Prod.fst hEq
        simpa using this
      subst hp
      intro hmem
      rcases List.mem_cons.mp hmem with h1 | h1
      · exact hc h1.symm
      · exact ih hpq h1

/-- In `splitNC`, every returned section except the last is free of the
separator. -/
theorem splitNC_dropLast_no_sep (sep : Char) :
    ∀ (n : Nat) (s : Str), ∀ l ∈ (splitNC sep n s).dropLast, sep ∉ l := by
  intro n
  induction n with
  | zero => intro s l hl; simp [splitNC] at hl
  | succ m ih =>
    intro s l hl
    match m with
    | 0 => simp [splitNC] at hl
    | Nat.succ m' =>
      rw [splitNC] at hl
      cases hbr : breakAtC sep s with
      | none => rw [hbr] at hl; simp at hl
      | some pp =>
        obtain ⟨pre, post⟩ := pp
        rw [hbr] at hl
        have hnonnil : splitNC sep (Nat.succ m') post ≠ [] := by
          match m' with
          | 0 => simp [splitNC]
          | Nat.succ k =>
            rw [splitNC]
            cases breakAtC sep post with
            | none => simp
            | some q => simp
        rw [List.dropLast_cons_of_ne_nil hnonnil] at hl
        rcases List.mem_cons.mp hl with h1 | h1
        · subst h1; exact breakAtC_pre_no_sep hbr
        · exact ih post l h1

/-- A parsed ARN's account ID contains no colon (it is one of the first five
colon-delimited sections). -/
theorem arnParse_accountID_no_colon {s : Str} {p : GoArn}
    (h : arnParse s = some p) : ':' ∉ p.accountID := by
  unfold arnParse at h
  by_cases hpre : startsWithC s ("arn:".data)
  · rw [if_pos hpre] at h
    cases hsplit : splitNC ':' 6 s with
    | nil => rw [hsplit] at h; simp at h
    | cons s0 rest =>
      rw [hsplit] at h
      match rest, h with
      | [a1, a2, a3, a4, a5], h =>
        have hp : p = ⟨a1, a2, a3, a4, a5⟩ := by
          simpa using h.symm
        subst hp
        have := splitNC_dropLast_no_sep ':' 6 s
        rw [hsplit] at this
        exact this a4 (by simp)
  · rw [if_neg hpre] at h
    simp at h

theorem startsWithC_mem :
    ∀ (p s : Str), startsWithC s p = true → ∀ c ∈ p, c ∈ s := by
  intro p
  induction p with
  | nil => intro s _ c hc; simp at hc
  | cons q ps ih =>
    intro s hs c hc
    cases s with
    | nil => simp [startsWithC] at hs
    | cons a s0 =>
      simp [startsWithC] at hs
      rcases List.mem_cons.mp hc with h1 | h1
      · subst h1
        simp [hs.1]
      · exact List.mem_cons_of_mem _ (ih s0 hs.2 c h1)

/-- A string accepted by `arnParse` contains a colon (it starts with `arn:`). -/
theorem arnParse_has_colon {s : Str} {p : GoArn}
    (h : arnParse s = some p) : ':' ∈ s := by
  unfold arnParse at h
  by_cases hpre : startsWithC s ("arn:".data)
  · exact startsWithC_mem _ s hpre ':' (by decide)
  · rw [if_neg hpre] at h
    simp at h

/-- Claim C1 (code bug): `Storage.Set` files the entry under the parsed account ID
while `Storage.GetStatus` looks the outer map up by the full principal ARN, so
a `Set` is never visible to a `GetStatus` of the very same ARN: the status
returned after the write is whatever it was before the write. -/
theorem C1_set_invisible_to_getStatus (data : StorageData) {a : Str} {p : GoArn}
    (hparse : arnParse a = some p) (info : Info) :
    storageGetStatus (storageSet data a info).2 a = storageGetStatus data a := by
  have hne : p.accountID ≠ a := by
    intro hEq
    exact arnParse_accountID_no_colon hparse (hEq ▸ arnParse_has_colon hparse)
  unfold storageSet
  rw [hparse]
  unfold storageGetStatus
  rw [lookupA_setA_ne _ _ hne]

/-- Claim C1 witness: at the concrete failing input — `Set` of the root ARN of
account `123456789012` with `Exists = true` into an empty cache, followed by
`GetStatus` of the same ARN — the code returns `PrincipalUnknown`, where the
claim requires `PrincipalExists`. -/
theorem C1_set_invisible_to_getStatus_witness :
    arnParse ("arn:aws:iam::123456789012:root".data) ≠ none ∧
    (storageGetStatus (storageSet [] ("arn:aws:iam::123456789012:root".data)
        ⟨[], true⟩).2 ("arn:aws:iam::123456789012:root".data)).1 = PrincipalUnknown := by
  refine ⟨by decide, ?_⟩
  have h := C1_set_invisible_to_getStatus []
    (a := "arn:aws:iam::123456789012:root".data)
    (p := ⟨"aws".data, "iam".data, [], "123456789012".data, "root".data⟩)
    (by decide) ⟨[], true⟩
  rw [h]
  decide

/-- Claim C10: when the principal ARN does not parse, `Storage.Set` returns a
non-nil error and leaves the in-memory document completely unchanged. -/
theorem C10_set_atomic_on_error (data : StorageData) (s : Str) (info : Info)
    (h : arnParse s = none) :
    (storageSet data s info).1 ≠ none ∧ (storageSet data s info).2 = data := by
  unfold storageSet
  rw [h]
  exact ⟨by simp, rfl⟩

/-- Claim C10 witness at the concrete non-ARN input `roles`. -/
theorem C10_set_atomic_on_error_witness :
    arnParse ("roles".data) = none ∧
    (storageSet [(("x".data : Str), [])] ("roles".data) ⟨[], true⟩).1 ≠ none ∧
    (storageSet [(("x".data : Str), [])] ("roles".data) ⟨[], true⟩).2 =
      [(("x".data : Str), [])] :=
  ⟨by decide, C10_set_atomic_on_error [(("x".data : Str), [])] ("roles".data) ⟨[], true⟩ (by decide)⟩

/-- Claim C5: the access-point plugin's `ScanArn` classifies every probe outcome
exactly as the claim states: success → (exists, no error); generic
`MalformedPolicy` API error whose message case-insensitively contains
`invalid principal` → (does not exist, no error); any other failure → a
non-nil probe error. -/
theorem C5_scanArn_classification (outcome : ApiOutcome) :
    accessPointScanArn outcome = specProbeClassify outcome := by
  cases outcome with
  | success => rfl
  | otherFailure => rfl
  | genericApiError code msg =>
    have hlower : toLowerC ("invalid principal".data) = ("invalid principal".data : Str) := by
      decide
    unfold accessPointScanArn specProbeClassify caseInsensitiveHas
    rw [hlower]
    by_cases hc : code = ("MalformedPolicy".data : Str)
    · simp only [hc, if_pos rfl]
      by_cases hm : hasSubstr (toLowerC msg) ("invalid principal".data)
      · simp [hm]
      · simp [hm]
    · simp [hc]

theorem breakAtC_none_no_sep {sep : Char} :
    ∀ {s : Str}, breakAtC sep s = none → sep ∉ s := by
  intro s
  induction s with
  | nil => intro _ h; simp at h
  | cons c rest ih =>
    intro h hmem
    by_cases hc : c = sep
    · simp [breakAtC, hc] at h
    · simp only [breakAtC, if_neg hc] at h
      rcases List.mem_cons.mp hmem with h1 | h1
      · exact hc h1.symm
      · cases hbr : breakAtC sep rest with
        | none => exact ih hbr h1
        | some p => rw [hbr] at h; simp at h

theorem takeUntilC_of_no_sep {sep : Char} :
    ∀ {s : Str}, sep ∉ s → takeUntilC sep s = s := by
  intro s
  induction s with
  | nil => intro _; rfl
  | cons c rest ih =>
    intro h
    have hc : c ≠ sep := fun hEq => h (by simp [hEq])
    simp only [takeUntilC, if_neg hc]
    rw [ih (fun hm => h (List.mem_cons_of_mem _ hm))]

theorem afterFirstC_of_no_sep {sep : Char} :
    ∀ {s : Str}, sep ∉ s → afterFirstC sep s = [] := by
  intro s
  induction s with
  | nil => intro _; rfl
  | cons c rest ih =>
    intro h
    have hc : c ≠ sep := fun hEq => h (by simp [hEq])
    simp only [afterFirstC, if_neg hc]
    exact ih (fun hm => h (List.mem_cons_of_mem _ hm))

theorem breakAtC_eq_append {sep : Char} :
    ∀ {s pre post : Str}, breakAtC sep s = some (pre, post) → s = pre ++ sep :: post := by
  intro s
  induction s with
  | nil => intro pre post h; simp [breakAtC] at h
  | cons c rest ih =>
    intro pre post h
    by_cases hc : c = sep
    · simp [breakAtC, hc] at h
      simp [h.1, hc, ← h.2]
    · simp only [breakAtC, if_neg hc, Option.map_eq_some'] at h
      obtain ⟨⟨p, q⟩, hpq, hEq⟩ := h
      have hp : c :: p = pre := by simpa using congrArg Prod.fst hEq
      have hq : q = post := by simpa using congrArg Prod.snd hEq
      subst hp
      subst hq
      simpa using ih hpq

theorem takeUntilC_breakAtC {sep : Char} {s pre post : Str}
    (h : breakAtC sep s = some (pre, post)) : takeUntilC sep s = pre := by
  have hs := breakAtC_eq_append h
  have hpre := breakAtC_pre_no_sep h
  subst hs
  clear h
  induction pre with
  | nil => simp [takeUntilC]
  | cons c rest ih =>
    have hc : c ≠ sep := fun hEq => hpre (by simp [hEq])
    simp only [List.cons_append, takeUntilC, if_neg hc]
    exact congrArg (List.cons c) (ih (fun hm => hpre (List.mem_cons_of_mem _ hm)))

theorem afterFirstC_breakAtC {sep : Char} {s pre post : Str}
    (h : breakAtC sep s = some (pre, post)) : afterFirstC sep s = post := by
  have hs := breakAtC_eq_append h
  have hpre := breakAtC_pre_no_sep h
  subst hs
  clear h
  induction pre with
  | nil => simp [afterFirstC]
  | cons c rest ih =>
    have hc : c ≠ sep := fun hEq => hpre (by simp [hEq])
    simp only [List.cons_append, afterFirstC, if_neg hc]
    exact ih (fun hm => hpre (List.mem_cons_of_mem _ hm))

theorem splitOnCAux_of_none {sep : Char} :
    ∀ {s : Str} (acc : Str), breakAtC sep s = none →
      splitOnCAux sep s acc = [acc.reverse ++ s] := by
  intro s
  induction s with
  | nil => intro acc _; simp [splitOnCAux]
  | cons c rest ih =>
    intro acc h
    by_cases hc : c = sep
    · simp [breakAtC, hc] at h
    · simp only [breakAtC, if_neg hc] at h
      have hrest : breakAtC sep rest = none := by
        cases hbr : breakAtC sep rest with
        | none => rfl
        | some p => rw [hbr] at h; simp at h
      simp [splitOnCAux, hc, ih (c :: acc) hrest]

theorem splitOnCAux_of_some {sep : Char} :
    ∀ {s pre post : Str} (acc : Str), breakAtC sep s = some (pre, post) →
      splitOnCAux sep s acc = (acc.reverse ++ pre) :: splitOnCAux sep post [] := by
  intro s
  induction s with
  | nil => intro pre post acc h; simp [breakAtC] at h
  | cons c rest ih =>
    intro pre post acc h
    by_cases hc : c = sep
    · simp [breakAtC, hc] at h
      simp [splitOnCAux, hc, h.1, ← h.2]
    · simp only [breakAtC, if_neg hc, Option.map_eq_some'] at h
      obtain ⟨⟨p, q⟩, hpq, hEq⟩ := h
      have hp : c :: p = pre := by simpa using congrArg Prod.fst hEq
      have hq : q = post := by simpa using congrArg Prod.snd hEq
      subst hq
      subst hp
      simp [splitOnCAux, hc, ih (c :: acc) hpq]

theorem splitOnC_of_none {sep : Char} {s : Str} (h : breakAtC sep s = none) :
    splitOnC sep s = [s] := by
  simpa [splitOnC] using splitOnCAux_of_none [] h

theorem splitOnC_of_some {sep : Char} {s pre post : Str}
    (h : breakAtC sep s = some (pre, post)) :
    splitOnC sep s = pre :: splitOnC sep post := by
  simpa [splitOnC] using splitOnCAux_of_some [] h

theorem splitOnC_ne_nil (sep : Char) (s : Str) : splitOnC sep s ≠ [] := by
  cases hbr : breakAtC sep s with
  | none => simp [splitOnC_of_none hbr]
  | some p => obtain ⟨pre, post⟩ := p; simp [splitOnC_of_some hbr]

theorem splitOnC_headD {sep : Char} (s : Str) :
    (splitOnC sep s).headD [] = takeUntilC sep s := by
  cases hbr : breakAtC sep s with
  | none =>
    rw [splitOnC_of_none hbr]
    simpa using (takeUntilC_of_no_sep (breakAtC_none_no_sep hbr)).symm
  | some p =>
    obtain ⟨pre, post⟩ := p
    rw [splitOnC_of_some hbr]
    simpa using (takeUntilC_breakAtC hbr).symm

theorem joinC_splitOnC (sep : Char) (s : Str) : joinC sep (splitOnC sep s) = s := by
  cases hbr : breakAtC sep s with
  | none => rw [splitOnC_of_none hbr]; rfl
  | some p =>
    obtain ⟨pre, post⟩ := p
    rw [splitOnC_of_some hbr]
    have hrec : joinC sep (splitOnC sep post) = post := joinC_splitOnC sep post
    cases hsp : splitOnC sep post with
    | nil => exact absurd hsp (splitOnC_ne_nil sep post)
    | cons t rest =>
      rw [hsp] at hrec
      rw [joinC, hrec, breakAtC_eq_append hbr]
termination_by s.length
decreasing_by exact breakAtC_some_length hbr

theorem joinC_splitOnC_tail {sep : Char} (s : Str) :
    joinC sep (splitOnC sep s).tail = afterFirstC sep s := by
  cases hbr : breakAtC sep s with
  | none =>
    rw [splitOnC_of_none hbr]
    simpa [joinC] using (afterFirstC_of_no_sep (breakAtC_none_no_sep hbr)).symm
  | some p =>
    obtain ⟨pre, post⟩ := p
    rw [splitOnC_of_some hbr]
    simpa [joinC_splitOnC] using (afterFirstC_breakAtC hbr).symm

/-- Claim C8: `GetInputFromPath` implements the list-file grammar exactly as the
claim words it — line by line, each line split at the first `#` into a trimmed
value and a verbatim comment, empty-value lines skipped. -/
theorem C8_list_file_grammar (text : Str) :
    getInputFromPath text = specListGrammar text := by
  unfold getInputFromPath specListGrammar
  refine List.foldl_ext _ _ _ (fun resp line _ => ?_)
  simp only [splitOnC_headD, joinC_splitOnC_tail]

theorem tmplTokenize_no_open :
    ∀ {t : Str} (acc : Str), hasSubstr t openDelim = false →
      tmplTokenize t false acc = some (t.map TmplTok.lit) := by
  intro t
  induction t with
  | nil => intro acc _; rfl
  | cons c rest ih =>
    intro acc h
    simp only [hasSubstr, Bool.or_eq_false_iff] at h
    obtain ⟨hstart, hrest⟩ := h
    cases rest with
    | nil => rfl
    | cons c2 rest2 =>
      have hcond : (c = '\x7b' && c2 = '\x7b') = false := by
        by_contra hcontra
        rw [Bool.not_eq_false, Bool.and_eq_true, decide_eq_true_eq, decide_eq_true_eq] at hcontra
        rw [hcontra.1, hcontra.2] at hstart
        simp [startsWithC, openDelim] at hstart
      show (if c = '\x7b' && c2 = '\x7b' then tmplTokenize rest2 true []
        else (tmplTokenize (c2 :: rest2) false []).map (fun ts => TmplTok.lit c :: ts)) =
          some ((c :: c2 :: rest2).map TmplTok.lit)
      rw [if_neg (by simp [hcond])]
      rw [ih [] hrest]
      rfl

theorem renderToks_map_lit (account region : Str) :
    ∀ t : Str, renderToks account region (t.map TmplTok.lit) = some t := by
  intro t
  induction t with
  | nil => rfl
  | cons c rest ih =>
    show (match execTmplTok account region (TmplTok.lit c),
            renderToks account region (rest.map TmplTok.lit) with
          | some s, some r => some (s ++ r)
          | _, _ => none) = some (c :: rest)
    rw [ih]
    rfl

/-- Claim C6 counterexample: on the claim's concrete input — the template written
with bare `AccountId` / `Region` identifiers — `GetArn` does not return the
claimed ARN: `text/template` rejects the bare identifiers as undefined
functions and `GetArn` returns an error. -/
theorem C6_counterexample :
    GetArn ("cdk-hnb659fds-deploy-role-\x7b\x7bAccountId\x7d\x7d-\x7b\x7bRegion\x7d\x7d".data)
        ("333333333333".data) ("us-west-2".data) ≠
      some ("arn:aws:iam::333333333333:role/cdk-hnb659fds-deploy-role-333333333333-us-west-2".data) := by
  decide

/-- Claim C6 (amended): with the field-access placeholders `.AccountId` /
`.Region` that the dialect actually defines, the claim's template, account and
region render to exactly the claimed ARN with no error; and any template
containing no opening delimiter renders to itself inside
`arn:aws:iam::<account>:role/<template>`. -/
theorem C6_template_rendering (t account region : Str)
    (h : hasSubstr t openDelim = false) :
    GetArn ("cdk-hnb659fds-deploy-role-\x7b\x7b.AccountId\x7d\x7d-\x7b\x7b.Region\x7d\x7d".data)
        ("333333333333".data) ("us-west-2".data) =
      some ("arn:aws:iam::333333333333:role/cdk-hnb659fds-deploy-role-333333333333-us-west-2".data) ∧
    GetArn t account region =
      some ("arn:aws:iam::".data ++ account ++ ":role/".data ++ t) := by
  constructor
  · decide
  · unfold GetArn renderTmpl
    rw [tmplTokenize_no_open [] h]
    show (renderToks account region (t.map TmplTok.lit)).map _ = _
    rw [renderToks_map_lit]
    rfl

/-- Claim C6 witness: the placeholder-free template `admin` expands for account
`222222222222` to `arn:aws:iam::222222222222:role/admin`. -/
theorem C6_template_rendering_witness :
    hasSubstr ("admin".data) openDelim = false ∧
    GetArn ("admin".data) ("222222222222".data) ("us-east-1".data) =
      some ("arn:aws:iam::222222222222:role/admin".data) :=
  ⟨by decide,
   (C6_template_rendering ("admin".data) ("222222222222".data) ("us-east-1".data) (by decide)).2⟩

theorem applyWrites_append (m : List (Str × Info)) (ws : List (Str × Info))
    (w : Str × Info) :
    applyWrites m (ws ++ [w]) = setA (applyWrites m ws) w.1 w.2 := by
  simp [applyWrites, List.foldl_append]

theorem lookupA_applyWrites (k : Str) :
    ∀ (ws : List (Str × Info)) (m : List (Str × Info)),
      lookupA (applyWrites m ws) k = (lastWrite ws k).or (lookupA m k) := by
  intro ws
  induction ws with
  | nil => intro m; simp [applyWrites, lastWrite]
  | cons w rest ih =>
    intro m
    have hstep : applyWrites m (w :: rest) = applyWrites (setA m w.1 w.2) rest := rfl
    rw [hstep, ih]
    unfold lastWrite
    rw [List.reverse_cons, List.find?_append]
    cases hfind : rest.reverse.find? (fun u => decide (u.1 = k)) with
    | some u => simp
    | none =>
      simp only [Option.none_or, Option.map, Option.or]
      by_cases hk : w.1 = k
      · subst hk
        simp [List.find?, lookupA_setA_self]
      · simp [List.find?, hk, lookupA_setA_ne _ _ hk]

/-- Generic correspondence between an `Option`-valued fold that performs map
assignments and the same fold that records the assignments. -/
theorem foldlM_setA_corr {α : Type}
    (stepW stepM : List (Str × Info) → α → Option (List (Str × Info)))
    (hstep : ∀ ws x, stepM (applyWrites [] ws) x = (stepW ws x).map (applyWrites [])) :
    ∀ (l : List α) (ws : List (Str × Info)),
      l.foldlM stepM (applyWrites [] ws) = (l.foldlM stepW ws).map (applyWrites []) := by
  intro l
  induction l with
  | nil => intro ws; rfl
  | cons x rest ih =>
    intro ws
    rw [List.foldlM_cons, List.foldlM_cons, hstep]
    cases hW : stepW ws x with
    | none => rfl
    | some ws1 =>
      simp only [Option.map, Option.bind]
      exact ih ws1

theorem GetArns_eq_writes (accounts roles : List (Str × Info)) (regions : List Str) :
    GetArns accounts roles regions =
      (getArnsWrites accounts roles regions).map (applyWrites []) := by
  have hreg : ∀ (acct role : Str × Info) (ws : List (Str × Info)),
      regions.foldlM
          (fun r3 region => (GetArn role.1 acct.1 region).map (fun arn =>
            setA r3 arn (combineComment acct.2 role.2)))
          (applyWrites [] ws) =
        (regions.foldlM
          (fun ws3 region => (GetArn role.1 acct.1 region).map (fun arn =>
            ws3 ++ [(arn, combineComment acct.2 role.2)]))
          ws).map (applyWrites []) := by
    intro acct role ws
    refine foldlM_setA_corr _ _ (fun ws1 region => ?_) regions ws
    cases hga : GetArn role.1 acct.1 region with
    | none => rfl
    | some arn =>
      simp only [hga, Option.map]
      rw [applyWrites_append]
  have hrole : ∀ (acct : Str × Info) (ws : List (Str × Info)),
      roles.foldlM
          (fun r2 role => regions.foldlM
            (fun r3 region => (GetArn role.1 acct.1 region).map (fun arn =>
              setA r3 arn (combineComment acct.2 role.2)))
            r2)
          (applyWrites [] ws) =
        (roles.foldlM
          (fun ws2 role => regions.foldlM
            (fun ws3 region => (GetArn role.1 acct.1 region).map (fun arn =>
              ws3 ++ [(arn, combineComment acct.2 role.2)]))
            ws2)
          ws).map (applyWrites []) := by
    intro acct ws
    exact foldlM_setA_corr _ _ (fun ws1 role => hreg acct role ws1) roles ws
  have hacct : ∀ ws : List (Str × Info),
      accounts.foldlM
          (fun result acct => roles.foldlM
            (fun r2 role => regions.foldlM
              (fun r3 region => (GetArn role.1 acct.1 region).map (fun arn =>
                setA r3 arn (combineComment acct.2 role.2)))
              r2)
            (setA result (GetRootArn acct.1) acct.2))
          (applyWrites [] ws) =
        (accounts.foldlM
          (fun ws0 acct => roles.foldlM
            (fun ws2 role => regions.foldlM
              (fun ws3 region => (GetArn role.1 acct.1 region).map (fun arn =>
                ws3 ++ [(arn, combineComment acct.2 role.2)]))
              ws2)
            (ws0 ++ [(GetRootArn acct.1, acct.2)]))
          ws).map (applyWrites []) := by
    refine foldlM_setA_corr _ _ (fun ws1 acct => ?_) accounts
    have h1 : setA (applyWrites [] ws1) (GetRootArn acct.1) acct.2 =
        applyWrites [] (ws1 ++ [(GetRootArn acct.1, acct.2)]) :=
      (applyWrites_append [] ws1 (GetRootArn acct.1, acct.2)).symm
    rw [h1]
    exact hrole acct (ws1 ++ [(GetRootArn acct.1, acct.2)])
  have h0 : (applyWrites [] [] : List (Str × Info)) = [] := rfl
  unfold GetArns getArnsWrites
  rw [← h0]
  exact hacct []

theorem mem_keys_setA {β : Type} (k : Str) (v : β) :
    ∀ (m : List (Str × β)) (k0 : Str),
      k0 ∈ (setA m k v).map Prod.fst → k0 ∈ m.map Prod.fst ∨ k0 = k := by
  intro m
  induction m with
  | nil =>
    intro k0 h
    simp only [setA, List.map_cons, List.map_nil] at h
    exact Or.inr (by simpa using h)
  | cons hd tl ih =>
    intro k0 h
    obtain ⟨k2, v2⟩ := hd
    by_cases hk2 : k2 = k
    · simp only [setA, if_pos hk2, List.map_cons] at h
      rcases List.mem_cons.mp h with h1 | h1
      · exact Or.inl (by simp only [List.map_cons]; exact h1 ▸ List.mem_cons_self _ _)
      · exact Or.inl (by simp only [List.map_cons]; exact List.mem_cons_of_mem _ h1)
    · simp only [setA, if_neg hk2, List.map_cons] at h
      rcases List.mem_cons.mp h with h1 | h1
      · exact Or.inl (by simp only [List.map_cons]; exact h1 ▸ List.mem_cons_self _ _)
      · rcases ih k0 h1 with h2 | h2
        · exact Or.inl (by simp only [List.map_cons]; exact List.mem_cons_of_mem _ h2)
        · exact Or.inr h2

theorem setA_keys_nodup {β : Type} (k : Str) (v : β) :
    ∀ m : List (Str × β), (m.map Prod.fst).Nodup → ((setA m k v).map Prod.fst).Nodup := by
  intro m
  induction m with
  | nil => intro _; simp [setA]
  | cons hd tl ih =>
    intro hnd
    obtain ⟨k0, v0⟩ := hd
    simp only [List.map_cons, List.nodup_cons] at hnd
    by_cases hk : k0 = k
    · simp only [setA, if_pos hk, List.map_cons, List.nodup_cons]
      exact hnd
    · simp only [setA, if_neg hk, List.map_cons, List.nodup_cons]
      refine ⟨fun hmem => ?_, ih hnd.2⟩
      rcases mem_keys_setA k v tl k0 hmem with h1 | h1
      · exact hnd.1 h1
      · exact hk h1

theorem applyWrites_keys_nodup :
    ∀ (ws m : List (Str × Info)), (m.map Prod.fst).Nodup →
      ((applyWrites m ws).map Prod.fst).Nodup := by
  intro ws
  induction ws with
  | nil => intro m h; exact h
  | cons w rest ih =>
    intro m h
    exact ih (setA m w.1 w.2) (setA_keys_nodup w.1 w.2 m h)

/-- Claim C7 counterexample: account `111111111111` (comment `A`) with the two
templates `\x7b\x7b.AccountId\x7d\x7d` (comment `T1`) and `111111111111`
(comment `T2`) expand, in the single region `us-east-1`, to the same ARN; the
resulting entry keeps only the later comment `A - T2` — the first producing
triple's comment `T1` is not appended but silently dropped. -/
theorem C7_counterexample :
    GetArn ("\x7b\x7b.AccountId\x7d\x7d".data) ("111111111111".data) ("us-east-1".data) =
        some ("arn:aws:iam::111111111111:role/111111111111".data) ∧
    GetArn ("111111111111".data) ("111111111111".data) ("us-east-1".data) =
        some ("arn:aws:iam::111111111111:role/111111111111".data) ∧
    (GetArns [(("111111111111".data : Str), ⟨"A".data, false⟩)]
        [(("\x7b\x7b.AccountId\x7d\x7d".data : Str), ⟨"T1".data, false⟩),
         (("111111111111".data : Str), ⟨"T2".data, false⟩)]
        [("us-east-1".data : Str)]).bind
      (fun m => lookupA m ("arn:aws:iam::111111111111:role/111111111111".data)) =
      some ⟨"A - T2".data, false⟩ ∧
    hasSubstr ("A - T2".data) ("T1".data) = false := by
  refine ⟨by decide, by decide, by decide, by decide⟩

/-- Claim C7 (amended): the ScanSet produced by `GetArns` contains each ARN at
most once, and the entry stored for an ARN is exactly the one of the *last*
producing write in iteration order — when several (account, template, region)
triples produce the same ARN, the later comment overwrites the earlier ones
instead of being appended. -/
theorem C7_duplicate_arn_last_write (accounts roles : List (Str × Info))
    (regions : List Str) (m ws : List (Str × Info))
    (hm : GetArns accounts roles regions = some m)
    (hw : getArnsWrites accounts roles regions = some ws) :
    (m.map Prod.fst).Nodup ∧ ∀ arn, lookupA m arn = lastWrite ws arn := by
  have hmw : m = applyWrites [] ws := by
    have h := GetArns_eq_writes accounts roles regions
    rw [hm, hw] at h
    simpa using h
  subst hmw
  refine ⟨applyWrites_keys_nodup ws [] (by simp), fun arn => ?_⟩
  rw [lookupA_applyWrites]
  simp [lookupA]

theorem C7_duplicate_arn_last_write_witness :
    GetArns [(("111111111111".data : Str), ⟨"A".data, false⟩)]
        [(("\x7b\x7b.AccountId\x7d\x7d".data : Str), ⟨"T1".data, false⟩),
         (("111111111111".data : Str), ⟨"T2".data, false⟩)]
        [("us-east-1".data : Str)] = some c7Map ∧
    getArnsWrites [(("111111111111".data : Str), ⟨"A".data, false⟩)]
        [(("\x7b\x7b.AccountId\x7d\x7d".data : Str), ⟨"T1".data, false⟩),
         (("111111111111".data : Str), ⟨"T2".data, false⟩)]
        [("us-east-1".data : Str)] = some c7Writes ∧
    (c7Map.map Prod.fst).Nodup ∧
    lookupA c7Map ("arn:aws:iam::111111111111:role/111111111111".data) =
      lastWrite c7Writes ("arn:aws:iam::111111111111:role/111111111111".data) := by
  have h := C7_duplicate_arn_last_write
    [(("111111111111".data : Str), ⟨"A".data, false⟩)]
    [(("\x7b\x7b.AccountId\x7d\x7d".data : Str), ⟨"T1".data, false⟩),
     (("111111111111".data : Str), ⟨"T2".data, false⟩)]
    [("us-east-1".data : Str)] c7Map c7Writes (by decide) (by decide)
  exact ⟨by decide, by decide, h.1, h.2 _⟩

theorem lookupA_none_not_mem_keys {β : Type} {m : List (Str × β)} {k : Str}
    (h : lookupA m k = none) : k ∉ m.map Prod.fst := by
  induction m with
  | nil => simp
  | cons hd tl ih =>
    obtain ⟨k0, v0⟩ := hd
    by_cases hk : k0 = k
    · simp [lookupA, hk] at h
    · simp only [lookupA, if_neg hk] at h
      simp only [List.map_cons, List.mem_cons]
      rintro (h1 | h1)
      · exact hk h1.symm
      · exact ih h h1

theorem lookupA_eq_of_mem_nodup {β : Type} {m : List (Str × β)} {k : Str} {v : β}
    (hnd : (m.map Prod.fst).Nodup) (hmem : (k, v) ∈ m) : lookupA m k = some v := by
  induction m with
  | nil => simp at hmem
  | cons hd tl ih =>
    obtain ⟨k0, v0⟩ := hd
    simp only [List.map_cons, List.nodup_cons] at hnd
    rcases List.mem_cons.mp hmem with h1 | h1
    · cases h1
      simp [lookupA]
    · by_cases hk : k0 = k
      · subst hk
        exact absurd (List.mem_map_of_mem Prod.fst h1) hnd.1
      · simp only [lookupA, if_neg hk]
        exact ih hnd.2 h1

theorem lookupA_isSome_of_mem {β : Type} {m : List (Str × β)} {k : Str} {v : β}
    (hmem : (k, v) ∈ m) : (lookupA m k).isSome = true := by
  induction m with
  | nil => simp at hmem
  | cons hd tl ih =>
    obtain ⟨k0, v0⟩ := hd
    by_cases hk : k0 = k
    · simp [lookupA, hk]
    · simp only [lookupA, if_neg hk]
      rcases List.mem_cons.mp hmem with h1 | h1
      · exact absurd (congrArg Prod.fst h1).symm hk
      · exact ih h1

theorem lookupA_mem_of_some {β : Type} {m : List (Str × β)} {k : Str} {v : β}
    (h : lookupA m k = some v) : (k, v) ∈ m := by
  induction m with
  | nil => simp [lookupA] at h
  | cons hd tl ih =>
    obtain ⟨k0, v0⟩ := hd
    by_cases hk : k0 = k
    · subst hk
      simp only [lookupA, if_pos rfl] at h
      cases h
      exact List.mem_cons_self _ _
    · simp only [lookupA, if_neg hk] at h
      exact List.mem_cons_of_mem _ (ih h)

theorem GetRootArn_inj {a b : Str} (h : GetRootArn a = GetRootArn b) : a = b := by
  unfold GetRootArn at h
  rw [List.append_assoc, List.append_assoc] at h
  exact List.append_cancel_right (List.append_cancel_left h)

theorem lookupA_append_single {β : Type} (k r : Str) (v : β) :
    ∀ m : List (Str × β), lookupA (m ++ [(k, v)]) r =
      match lookupA m r with
      | some w => some w
      | none => if k = r then some v else none := by
  intro m
  induction m with
  | nil => simp [lookupA]
  | cons hd tl ih =>
    obtain ⟨k0, v0⟩ := hd
    by_cases hk : k0 = r
    · simp [lookupA, hk]
    · simp only [List.cons_append, lookupA, if_neg hk]
      exact ih

theorem rootArnStep_inv {processed : List Str} {state : List (Str × List Str)}
    {a : Str} {state2 : List (Str × List Str)}
    (hInv : RootInv processed state) (hstep : rootArnStep state a = some state2) :
    RootInv (processed ++ [a]) state2 := by
  unfold rootArnStep at hstep
  cases hp : arnParse a with
  | none => rw [hp] at hstep; cases hstep
  | some p =>
    rw [hp] at hstep
    simp only [Option.map] at hstep
    set root := GetRootArn p.accountID with hrootDef
    set state1 := (if (lookupA state root).isSome then state
      else state ++ [(root, [])]) with hstate1
    set old := (lookupA state root).getD [] with holdDef
    injection hstep with hstep2
    have hroot1 : lookupA state1 root = some old := by
      rw [hstate1]
      cases hS : lookupA state root with
      | some w => simp [hS, holdDef]
      | none =>
        simp only [hS, Option.isSome_none, Bool.false_eq_true, if_false]
        rw [lookupA_append_single, hS]
        simp [holdDef, hS]
    have hother1 : ∀ r : Str, r ≠ root → lookupA state1 r = lookupA state r := by
      intro r hr
      rw [hstate1]
      cases hS : (lookupA state root).isSome with
      | true => simp [hS]
      | false =>
        simp only [hS, Bool.false_eq_true, if_false]
        rw [lookupA_append_single]
        cases hSr : lookupA state r with
        | some w => simp
        | none => simp [Ne.symm hr]
    have hsome1 : ∀ r : Str, (lookupA state1 r).isSome = true ↔
        ((lookupA state r).isSome = true ∨ r = root) := by
      intro r
      by_cases hr : r = root
      · subst hr
        simp [hroot1]
      · rw [hother1 r hr]
        simp [hr]
    have hold_members : old = rootMembers p.accountID processed := by
      cases hS : lookupA state root with
      | some w =>
        have := hInv.2.1 p.accountID w (by rw [← hrootDef]; exact hS)
        rw [holdDef, hS]
        simpa using this
      | none =>
        rw [holdDef, hS]
        have hnone : ∀ x ∈ processed, ¬ isMemberOf p.accountID x = true := by
          intro x hx hmem
          unfold isMemberOf at hmem
          cases hq : arnParse x with
          | none => rw [hq] at hmem; cases hmem
          | some q =>
            rw [hq] at hmem
            rw [Bool.and_eq_true, decide_eq_true_eq] at hmem
            have : (lookupA state root).isSome = true := by
              refine (hInv.1 root).mpr ⟨x, hx, q, hq, ?_⟩
              rw [hrootDef, hmem.1]
            rw [hS] at this
            cases this
        simp [rootMembers, List.filter_eq_nil_iff.mpr hnone]
    have hmem_a_root : p.resource = ("root".data : Str) →
        isMemberOf p.accountID a = false := by
      intro hres
      unfold isMemberOf
      rw [hp]
      simp [hres]
    have hmem_a_nonroot : p.resource ≠ ("root".data : Str) →
        isMemberOf p.accountID a = true := by
      intro hres
      unfold isMemberOf
      rw [hp]
      simp [hres]
    have hmem_a_other : ∀ acc : Str, acc ≠ p.accountID → isMemberOf acc a = false := by
      intro acc hacc
      unfold isMemberOf
      rw [hp]
      simp [Ne.symm hacc]
    have hP1 : ∀ r : Str, (lookupA state2 r).isSome = true ↔
        ∃ x ∈ processed ++ [a], ∃ q, arnParse x = some q ∧ r = GetRootArn q.accountID := by
      intro r
      rw [← hstep2]
      have hkeys2 : (lookupA (if p.resource = ("root".data : Str) then state1
          else setA state1 root ((lookupA state1 root).getD [] ++ [a])) r).isSome = true ↔
          (lookupA state1 r).isSome = true := by
        by_cases hres : p.resource = ("root".data : Str)
        · rw [if_pos hres]
        · rw [if_neg hres]
          by_cases hr : r = root
          · subst hr
            simp [lookupA_setA_self, hroot1]
          · rw [lookupA_setA_ne _ _ (fun hEq => hr hEq.symm)]
      rw [hkeys2, hsome1, hInv.1 r]
      constructor
      · rintro (⟨x, hx, q, hq, hr⟩ | hr)
        · exact ⟨x, List.mem_append_left _ hx, q, hq, hr⟩
        · exact ⟨a, List.mem_append_right _ (by simp), p, hp, by rw [hr, hrootDef]⟩
      · rintro ⟨x, hx, q, hq, hr⟩
        rcases List.mem_append.mp hx with hx1 | hx1
        · exact Or.inl ⟨x, hx1, q, hq, hr⟩
        · have hxa : x = a := by simpa using hx1
          subst hxa
          rw [hp] at hq
          cases hq
          exact Or.inr (by rw [hr, hrootDef])
    have hnd1 : (state1.map Prod.fst).Nodup := by
      rw [hstate1]
      cases hS : lookupA state root with
      | some w => simpa [hS] using hInv.2.2
      | none =>
        simp only [hS, Option.isSome_none, Bool.false_eq_true, if_false]
        rw [List.map_append]
        refine List.nodup_append.mpr ⟨hInv.2.2, by simp, ?_⟩
        intro x hx hx2
        simp only [List.map_cons, List.map_nil, List.mem_singleton] at hx2
        subst hx2
        exact lookupA_none_not_mem_keys hS hx
    have hND : (state2.map Prod.fst).Nodup := by
      rw [← hstep2]
      by_cases hres : p.resource = ("root".data : Str)
      · rw [if_pos hres]
        exact hnd1
      · rw [if_neg hres]
        exact setA_keys_nodup _ _ _ hnd1
    have hP2 : ∀ acc : Str, ∀ l, lookupA state2 (GetRootArn acc) = some l →
        l = rootMembers acc (processed ++ [a]) := by
      intro acc l hl
      rw [← hstep2] at hl
      by_cases hacc : GetRootArn acc = root
      · have haccEq : acc = p.accountID := GetRootArn_inj (by rw [hacc, hrootDef])
        subst haccEq
        by_cases hres : p.resource = ("root".data : Str)
        · rw [if_pos hres, ← hrootDef, hroot1] at hl
          injection hl with hl2
          rw [← hl2, hold_members]
          unfold rootMembers
          rw [List.filter_append]
          simp [List.filter, hmem_a_root hres]
        · rw [if_neg hres, ← hrootDef, lookupA_setA_self, hroot1] at hl
          injection hl with hl2
          rw [← hl2]
          show old ++ [a] = rootMembers p.accountID (processed ++ [a])
          rw [hold_members]
          unfold rootMembers
          rw [List.filter_append]
          simp [List.filter, hmem_a_nonroot hres]
      · have haccNe : acc ≠ p.accountID := fun hEq => hacc (by rw [hEq, hrootDef])
        have hl1 : lookupA state1 (GetRootArn acc) = some l := by
          by_cases hres : p.resource = ("root".data : Str)
          · rw [if_pos hres] at hl
            exact hl
          · rw [if_neg hres] at hl
            rw [lookupA_setA_ne _ _ (fun hEq => hacc hEq.symm)] at hl
            exact hl
        rw [hother1 _ hacc] at hl1
        have := hInv.2.1 acc l hl1
        rw [this]
        unfold rootMembers
        rw [List.filter_append]
        simp [List.filter, hmem_a_other acc haccNe]
    exact ⟨hP1, hP2, hND⟩

theorem rootArnFold_inv :
    ∀ (rest processed : List Str) (state m : List (Str × List Str)),
      RootInv processed state → List.foldlM rootArnStep state rest = some m →
      RootInv (processed ++ rest) m := by
  intro rest
  induction rest with
  | nil =>
    intro processed state m hInv hfold
    rw [List.foldlM_nil] at hfold
    cases hfold
    simpa using hInv
  | cons a rest2 ih =>
    intro processed state m hInv hfold
    rw [List.foldlM_cons] at hfold
    cases hstep : rootArnStep state a with
    | none => rw [hstep] at hfold; cases hfold
    | some state2 =>
      rw [hstep] at hfold
      have h2 := rootArnStep_inv hInv hstep
      have h3 := ih (processed ++ [a]) state2 m h2 hfold
      simpa [List.append_assoc] using h3

/-- Claim C3: for parseable inputs, `RootArnMap` returns a map whose keys are
exactly the root ARNs of the account IDs appearing in the input, and the
value for `root(acc)` is exactly the non-root input ARNs whose literal
account ID is `acc`, in input order (root ARNs in the input contribute their
key with no members). -/
theorem C3_rootArnMap_grouping (principalArns : List Str)
    (m : List (Str × List Str)) (h : RootArnMap principalArns = some m) :
    (∀ r : Str, (lookupA m r).isSome = true ↔
        ∃ a ∈ principalArns, ∃ p, arnParse a = some p ∧ r = GetRootArn p.accountID) ∧
    (∀ acc : Str, ∀ l, lookupA m (GetRootArn acc) = some l →
        l = rootMembers acc principalArns) := by
  have hbase : RootInv [] [] := by
    refine ⟨fun r => ?_, fun acc l hl => ?_, by simp⟩
    · simp [lookupA]
    · simp [lookupA] at hl
  have h1 := rootArnFold_inv principalArns [] [] m hbase h
  have h2 : RootInv principalArns m := by simpa using h1
  exact ⟨h2.1, h2.2.1⟩

/-- Claim C3 witness at the unit test's inputs: two role ARNs in account
`123456789012` and one in `123456789013` group under their root ARNs. -/
theorem C3_rootArnMap_grouping_witness :
    RootArnMap
        [("arn:aws:iam::123456789012:role/a".data : Str),
         ("arn:aws:iam::123456789012:role/b".data : Str),
         ("arn:aws:iam::123456789013:role/a".data : Str)] =
      some [(GetRootArn ("123456789012".data),
              [("arn:aws:iam::123456789012:role/a".data : Str),
               ("arn:aws:iam::123456789012:role/b".data : Str)]),
            (GetRootArn ("123456789013".data),
              [("arn:aws:iam::123456789013:role/a".data : Str)])] ∧
    (lookupA [(GetRootArn ("123456789012".data),
              [("arn:aws:iam::123456789012:role/a".data : Str),
               ("arn:aws:iam::123456789012:role/b".data : Str)]),
            (GetRootArn ("123456789013".data),
              [("arn:aws:iam::123456789013:role/a".data : Str)])]
        (GetRootArn ("123456789012".data))).getD [] =
      rootMembers ("123456789012".data)
        [("arn:aws:iam::123456789012:role/a".data : Str),
         ("arn:aws:iam::123456789012:role/b".data : Str),
         ("arn:aws:iam::123456789013:role/a".data : Str)] := by
  have h := C3_rootArnMap_grouping
    [("arn:aws:iam::123456789012:role/a".data : Str),
     ("arn:aws:iam::123456789012:role/b".data : Str),
     ("arn:aws:iam::123456789013:role/a".data : Str)]
    [(GetRootArn ("123456789012".data),
       [("arn:aws:iam::123456789012:role/a".data : Str),
        ("arn:aws:iam::123456789012:role/b".data : Str)]),
     (GetRootArn ("123456789013".data),
       [("arn:aws:iam::123456789013:role/a".data : Str)])]
    (by decide)
  refine ⟨by decide, ?_⟩
  rw [h.2 ("123456789012".data)
    [("arn:aws:iam::123456789012:role/a".data : Str),
     ("arn:aws:iam::123456789012:role/b".data : Str)] (by decide)]
  decide

theorem breakAtC_no_sep_append {sep : Char} {post : Str} :
    ∀ {pre : Str}, sep ∉ pre → breakAtC sep (pre ++ sep :: post) = some (pre, post) := by
  intro pre
  induction pre with
  | nil => intro _; simp [breakAtC]
  | cons c rest ih =>
    intro h
    have hc : c ≠ sep := fun hEq => h (by simp [hEq])
    show breakAtC sep (c :: (rest ++ sep :: post)) = some (c :: rest, post)
    rw [breakAtC, if_neg hc, ih (fun hm => h (List.mem_cons_of_mem _ hm))]
    rfl

theorem splitNC_step (sep : Char) (n : Nat) {pre post : Str} (h : sep ∉ pre) :
    splitNC sep (n + 2) (pre ++ sep :: post) = pre :: splitNC sep (n + 1) post := by
  show splitNC sep (Nat.succ (Nat.succ n)) (pre ++ sep :: post) = _
  rw [splitNC, breakAtC_no_sep_append h]

/-- The root ARN of a colon-free account ID parses to exactly the expected
sections, with resource `root`. -/
theorem arnParse_GetRootArn {acc : Str} (h : ':' ∉ acc) :
    arnParse (GetRootArn acc) =
      some ⟨"aws".data, "iam".data, [], acc, "root".data⟩ := by
  have hshape : GetRootArn acc =
      "arn".data ++ ':' :: ("aws".data ++ ':' :: ("iam".data ++ ':' ::
        (([] : Str) ++ ':' :: (acc ++ ':' :: "root".data)))) := rfl
  have hstart : startsWithC (GetRootArn acc) ("arn:".data) = true := rfl
  unfold arnParse
  rw [if_pos hstart, hshape]
  rw [splitNC_step ':' 4 (by decide), splitNC_step ':' 3 (by decide),
    splitNC_step ':' 2 (by decide), splitNC_step ':' 1 (by decide),
    splitNC_step ':' 0 h]
  rfl

theorem isMemberOf_rootArn_false (acc : Str) {b : Str} (hb : ':' ∉ b) :
    isMemberOf acc (GetRootArn b) = false := by
  unfold isMemberOf
  rw [arnParse_GetRootArn hb]
  simp

/-- A shared fact: with the `RootArnMap` invariant in hand, every member of
any entry other than `root(acc)` is neither `root(acc)` itself nor a role
candidate of account `acc`. -/
theorem rootKey_member_facts {principalArns : List Str} {m : List (Str × List Str)}
    (hInv : RootInv principalArns m) {acc : Str} (haccCF : ':' ∉ acc)
    {k : Str} {v : List Str} (hkv : lookupA m k = some v)
    (hkne : k ≠ GetRootArn acc) {x : Str} (hx : x ∈ v) :
    x ≠ GetRootArn acc ∧ isMemberOf acc x = false := by
  have hk : (lookupA m k).isSome = true := by rw [hkv]; rfl
  obtain ⟨a, ha, q, hq, hkEq⟩ := (hInv.1 k).mp hk
  have hv : v = rootMembers q.accountID principalArns :=
    hInv.2.1 q.accountID v (by rw [← hkEq]; exact hkv)
  subst hv
  have hxm : isMemberOf q.accountID x = true := List.of_mem_filter hx
  have hqacc : q.accountID ≠ acc := by
    intro hEq
    exact hkne (by rw [hkEq, hEq])
  unfold isMemberOf at hxm
  cases hr : arnParse x with
  | none => rw [hr] at hxm; cases hxm
  | some r =>
    rw [hr] at hxm
    rw [Bool.and_eq_true] at hxm
    obtain ⟨h1, h2⟩ := hxm
    have hacc1 : r.accountID = q.accountID := of_decide_eq_true h1
    have hres : r.resource ≠ ("root".data : Str) := by
      intro hEq
      rw [hEq] at h2
      simp at h2
    constructor
    · intro hEq
      rw [hEq] at hr
      have h3 := (arnParse_GetRootArn haccCF).symm.trans hr
      injection h3 with h4
      exact hres (by rw [← h4])
    · unfold isMemberOf
      rw [hr]
      simp [hacc1, hqacc]

theorem scanPhase1Pre_yield_absent {cache : CacheMap} :
    ∀ {entries : List (Str × List Str)} {k : Str} {v : List Str},
      (k, v) ∈ entries → cacheGetStatus cache k = PrincipalDoesNotExist →
      (k, false) ∈ (scanPhase1Pre cache entries).1 := by
  intro entries
  induction entries with
  | nil => intro k v h _; simp at h
  | cons e rest ih =>
    intro k v h hst
    rcases List.mem_cons.mp h with h1 | h1
    · rw [← h1]
      show (k, false) ∈ (scanPhase1Pre cache ((k, v) :: rest)).1
      simp only [scanPhase1Pre, hst]
      exact List.mem_cons_self _ _
    · have hmem := ih h1 hst
      show (k, false) ∈ (scanPhase1Pre cache (e :: rest)).1
      simp only [scanPhase1Pre]
      cases hse : cacheGetStatus cache e.1 with
      | PrincipalDoesNotExist => exact List.mem_cons_of_mem _ hmem
      | PrincipalExists => exact List.mem_cons_of_mem _ hmem
      | PrincipalUnknown => exact hmem

theorem scanPhase1Pre_roots {cache : CacheMap} :
    ∀ {entries : List (Str × List Str)} {x : Str},
      x ∈ (scanPhase1Pre cache entries).2.1 →
      ∃ v, (x, v) ∈ entries ∧ cacheGetStatus cache x = PrincipalUnknown := by
  intro entries
  induction entries with
  | nil => intro x h; simp [scanPhase1Pre] at h
  | cons e rest ih =>
    intro x h
    simp only [scanPhase1Pre] at h
    cases hse : cacheGetStatus cache e.1 with
    | PrincipalDoesNotExist =>
      rw [hse] at h
      obtain ⟨v, hv, hst⟩ := ih h
      exact ⟨v, List.mem_cons_of_mem _ hv, hst⟩
    | PrincipalExists =>
      rw [hse] at h
      obtain ⟨v, hv, hst⟩ := ih h
      exact ⟨v, List.mem_cons_of_mem _ hv, hst⟩
    | PrincipalUnknown =>
      rw [hse] at h
      rcases List.mem_cons.mp h with h1 | h1
      · subst h1
        exact ⟨e.2, List.mem_cons_self _ _, hse⟩
      · obtain ⟨v, hv, hst⟩ := ih h1
        exact ⟨v, List.mem_cons_of_mem _ hv, hst⟩

theorem scanPhase1Pre_members {cache : CacheMap} :
    ∀ {entries : List (Str × List Str)} {x : Str},
      x ∈ (scanPhase1Pre cache entries).2.2 →
      ∃ k v, (k, v) ∈ entries ∧ x ∈ v ∧ cacheGetStatus cache k = PrincipalExists := by
  intro entries
  induction entries with
  | nil => intro x h; simp [scanPhase1Pre] at h
  | cons e rest ih =>
    intro x h
    simp only [scanPhase1Pre] at h
    cases hse : cacheGetStatus cache e.1 with
    | PrincipalDoesNotExist =>
      rw [hse] at h
      obtain ⟨k, v, hkv, hx, hst⟩ := ih h
      exact ⟨k, v, List.mem_cons_of_mem _ hkv, hx, hst⟩
    | PrincipalUnknown =>
      rw [hse] at h
      obtain ⟨k, v, hkv, hx, hst⟩ := ih h
      exact ⟨k, v, List.mem_cons_of_mem _ hkv, hx, hst⟩
    | PrincipalExists =>
      rw [hse] at h
      rcases List.mem_append.mp h with h1 | h1
      · exact ⟨e.1, e.2, by simp, h1, hse⟩
      · obtain ⟨k, v, hkv, hx, hst⟩ := ih h1
        exact ⟨k, v, List.mem_cons_of_mem _ hkv, hx, hst⟩

theorem scanPhase1Scan_members {probe : Str → Option Bool}
    {m : List (Str × List Str)} :
    ∀ {roots : List Str} {cache : CacheMap} {x : Str},
      x ∈ (scanPhase1Scan probe m cache roots).2.1 →
      ∃ root ∈ roots, x ∈ (lookupA m root).getD [] := by
  intro roots
  induction roots with
  | nil => intro cache x h; simp [scanPhase1Scan] at h
  | cons root rest ih =>
    intro cache x h
    simp only [scanPhase1Scan] at h
    cases hpr : probe root with
    | none =>
      rw [hpr] at h
      obtain ⟨r, hr, hx⟩ := ih h
      exact ⟨r, List.mem_cons_of_mem _ hr, hx⟩
    | some e =>
      rw [hpr] at h
      rcases List.mem_append.mp h with h1 | h1
      · cases e with
        | true => exact ⟨root, List.mem_cons_self _ _, by simpa using h1⟩
        | false => simp at h1
      · obtain ⟨r, hr, hx⟩ := ih h1
        exact ⟨r, List.mem_cons_of_mem _ hr, hx⟩

theorem scanPhase2Pre_sub {cache : CacheMap} :
    ∀ {l : List Str} {x : Str}, x ∈ (scanPhase2Pre cache l).2 → x ∈ l := by
  intro l
  induction l with
  | nil => intro x h; simp [scanPhase2Pre] at h
  | cons arn rest ih =>
    intro x h
    simp only [scanPhase2Pre] at h
    cases hse : cacheGetStatus cache arn with
    | PrincipalUnknown =>
      rw [hse] at h
      rcases List.mem_cons.mp h with h1 | h1
      · subst h1; exact List.mem_cons_self _ _
      · exact List.mem_cons_of_mem _ (ih h1)
    | PrincipalExists =>
      rw [hse] at h
      exact List.mem_cons_of_mem _ (ih h)
    | PrincipalDoesNotExist =>
      rw [hse] at h
      exact List.mem_cons_of_mem _ (ih h)

/-- Claim C2: with `force` off, for every account `acc` whose root ARN is in the
root map and has cached status `absent`, a full `ScanArns` run yields
`(root(acc), false)` and hands no plugin probe either `root(acc)` or any role
candidate of account `acc`. -/
theorem C2_account_skip_on_negative_root
    (probe : Str → Option Bool) (cache : CacheMap) (principalArns : List Str)
    (m : List (Str × List Str)) (acc : Str) (out : ScanOutcome)
    (hm : RootArnMap principalArns = some m)
    (hkey : (lookupA m (GetRootArn acc)).isSome = true)
    (habsent : cacheGetStatus cache (GetRootArn acc) = PrincipalDoesNotExist)
    (hrun : ScanArns false probe cache principalArns = some out) :
    (GetRootArn acc, false) ∈ out.yielded ∧
    ∀ x ∈ out.probed, x ≠ GetRootArn acc ∧ isMemberOf acc x = false := by
  have hInv : RootInv principalArns m := by
    have hbase : RootInv [] [] := by
      refine ⟨fun r => ?_, fun a l hl => ?_, by simp⟩
      · simp [lookupA]
      · simp [lookupA] at hl
    have h1 := rootArnFold_inv principalArns [] [] m hbase hm
    simpa using h1
  have haccCF : ':' ∉ acc := by
    obtain ⟨a, ha, q, hq, hEq⟩ := (hInv.1 _).mp hkey
    have h2 : acc = q.accountID := GetRootArn_inj hEq
    rw [h2]
    exact arnParse_accountID_no_colon hq
  unfold ScanArns at hrun
  rw [hm] at hrun
  simp only [Option.map, Bool.false_eq_true, if_false] at hrun
  injection hrun with hout
  subst hout
  constructor
  · show (GetRootArn acc, false) ∈
      (scanPhase1Pre cache m).1 ++
        (scanPhase1Scan probe m cache (scanPhase1Pre cache m).2.1).1 ++
        (scanPhase2Pre (scanPhase1Scan probe m cache (scanPhase1Pre cache m).2.1).2.2
          ((scanPhase1Pre cache m).2.2 ++
            (scanPhase1Scan probe m cache (scanPhase1Pre cache m).2.1).2.1)).1 ++
        (scanPhase2Scan probe
          (scanPhase1Scan probe m cache (scanPhase1Pre cache m).2.1).2.2
          (scanPhase2Pre (scanPhase1Scan probe m cache (scanPhase1Pre cache m).2.1).2.2
            ((scanPhase1Pre cache m).2.2 ++
              (scanPhase1Scan probe m cache (scanPhase1Pre cache m).2.1).2.1)).2).1
    obtain ⟨v, hv⟩ := Option.isSome_iff_exists.mp hkey
    exact List.mem_append_left _ (List.mem_append_left _ (List.mem_append_left _
      (scanPhase1Pre_yield_absent (lookupA_mem_of_some hv) habsent)))
  · intro x hx
    have hx2 : x ∈ (scanPhase1Pre cache m).2.1 ++
        (scanPhase2Pre (scanPhase1Scan probe m cache (scanPhase1Pre cache m).2.1).2.2
          ((scanPhase1Pre cache m).2.2 ++
            (scanPhase1Scan probe m cache (scanPhase1Pre cache m).2.1).2.1)).2 := hx
    rcases List.mem_append.mp hx2 with hx3 | hx3
    · obtain ⟨v, hvmem, hstx⟩ := scanPhase1Pre_roots hx3
      constructor
      · intro hEq
        rw [hEq, habsent] at hstx
        cases hstx
      · have hkx : (lookupA m x).isSome = true := lookupA_isSome_of_mem hvmem
        obtain ⟨a, ha, q, hq, hxEq⟩ := (hInv.1 x).mp hkx
        rw [hxEq]
        exact isMemberOf_rootArn_false acc (arnParse_accountID_no_colon hq)
    · have hx4 : x ∈ (scanPhase1Pre cache m).2.2 ++
          (scanPhase1Scan probe m cache (scanPhase1Pre cache m).2.1).2.1 :=
        scanPhase2Pre_sub hx3
      rcases List.mem_append.mp hx4 with hx5 | hx5
      · obtain ⟨k, v, hkv, hxv, hstk⟩ := scanPhase1Pre_members hx5
        have hkne : k ≠ GetRootArn acc := by
          intro hEq
          rw [hEq, habsent] at hstk
          cases hstk
        exact rootKey_member_facts hInv haccCF
          (lookupA_eq_of_mem_nodup hInv.2.2 hkv) hkne hxv
      · obtain ⟨root, hrootmem, hxv⟩ := scanPhase1Scan_members hx5
        obtain ⟨v, hvmem, hstr⟩ := scanPhase1Pre_roots hrootmem
        have hrootlook : lookupA m root = some v :=
          lookupA_eq_of_mem_nodup hInv.2.2 hvmem
        have hxv2 : x ∈ v := by
          rw [hrootlook] at hxv
          exact hxv
        have hrne : root ≠ GetRootArn acc := by
          intro hEq
          rw [hEq, habsent] at hstr
          cases hstr
        exact rootKey_member_facts hInv haccCF hrootlook hrne hxv2

/-- Claim C2 witness: account `111111111111` is cached absent; the run yields
`(root, false)` for it and probes only account `222222222222`. -/
theorem C2_account_skip_on_negative_root_witness :
    RootArnMap
        [("arn:aws:iam::111111111111:root".data : Str),
         ("arn:aws:iam::111111111111:role/admin".data : Str),
         ("arn:aws:iam::222222222222:role/admin".data : Str)] = some c2Map ∧
    (lookupA c2Map (GetRootArn ("111111111111".data))).isSome = true ∧
    cacheGetStatus [(GetRootArn ("111111111111".data), false)]
        (GetRootArn ("111111111111".data)) = PrincipalDoesNotExist ∧
    ScanArns false (fun _ => some true) [(GetRootArn ("111111111111".data), false)]
        [("arn:aws:iam::111111111111:root".data : Str),
         ("arn:aws:iam::111111111111:role/admin".data : Str),
         ("arn:aws:iam::222222222222:role/admin".data : Str)] = some c2Out ∧
    (GetRootArn ("111111111111".data), false) ∈ c2Out.yielded ∧
    ∀ x ∈ c2Out.probed,
      x ≠ GetRootArn ("111111111111".data) ∧ isMemberOf ("111111111111".data) x = false := by
  have h := C2_account_skip_on_negative_root (fun _ => some true)
    [(GetRootArn ("111111111111".data), false)]
    [("arn:aws:iam::111111111111:root".data : Str),
     ("arn:aws:iam::111111111111:role/admin".data : Str),
     ("arn:aws:iam::222222222222:role/admin".data : Str)]
    c2Map ("111111111111".data) c2Out (by decide) (by decide) (by decide) (by decide)
  exact ⟨by decide, by decide, by decide, by decide, h.1, h.2⟩

/-- Claim C9 counterexample: the info log stream of the context `cmd.Run` uses is
wired to stdout, not stderr — with and without `-debug` — so log output is
not confined to stderr. -/
theorem C9_counterexample :
    (mainStreams false).infoS = OutStream.stdout ∧
    (mainStreams true).infoS = OutStream.stdout ∧
    OutStream.stdout ≠ OutStream.stderr := by
  decide

/-- Claim C9 (amended): exactly the principals reported existing are printed, one
`<arn> # <comment>` line each; the error stream writes to stderr and the
debug stream to stderr only when `-debug` is set (discarded otherwise), but
the info log stream writes to stdout, alongside the result lines. -/
theorem C9_output_streams (debugFlag : Bool) :
    (mainStreams debugFlag).errorS = OutStream.stderr ∧
    (mainStreams debugFlag).infoS = OutStream.stdout ∧
    (mainStreams debugFlag).debugS =
      (if debugFlag then OutStream.stderr else OutStream.discard) ∧
    ∀ (scanData : List (Str × Info)) (results : List (Str × Bool)),
      runOutputLines scanData results =
        (results.filter (fun r => r.2)).map (fun r =>
          r.1 ++ " # ".data ++ ((lookupA scanData r.1).getD ⟨[], false⟩).comment) := by
  refine ⟨by cases debugFlag <;> rfl, by cases debugFlag <;> rfl,
    by cases debugFlag <;> rfl, fun scanData results => ?_⟩
  simp only [runOutputLines]
  induction results with
  | nil => rfl
  | cons r rest ih =>
    obtain ⟨arn, ex⟩ := r
    cases ex <;> simp_all [List.filterMap_cons, List.filter_cons]

theorem rateEpoch_facts (n : Nat) (s : BucketState) (req : Nat)
    (hs : s.tokens ≤ n) :
    (rateEpoch n s req).1.tokens ≤ n ∧ (rateEpoch n s req).2.1 ≤ n ∧
    (rateEpoch n s req).2.2 ≤ n ∧
    (s.cancelled = true → (rateEpoch n s req).2.1 = 0) := by
  unfold rateEpoch
  by_cases hc : s.cancelled <;> simp [hc] <;> omega

theorem rateRun_facts (n cancelAt : Nat) :
    ∀ (reqs : List Nat) (s : BucketState) (i0 : Nat), s.tokens ≤ n →
      (∀ pr ∈ rateRun n cancelAt s i0 reqs, pr.1 ≤ n ∧ pr.2 ≤ n) ∧
      (∀ j pr, cancelAt ≤ i0 + j →
        (rateRun n cancelAt s i0 reqs).get? j = some pr → pr.1 = 0) := by
  intro reqs
  induction reqs with
  | nil =>
    intro s i0 _
    refine ⟨fun pr hpr => ?_, fun j pr _ hj => ?_⟩
    · simp [rateRun] at hpr
    · simp [rateRun] at hj
  | cons req rest ih =>
    intro s i0 hs
    have hrunEq : rateRun n cancelAt s i0 (req :: rest) =
        ((rateEpoch n (if cancelAt ≤ i0 then cancelBucket s else s) req).2.1,
         (rateEpoch n (if cancelAt ≤ i0 then cancelBucket s else s) req).2.2) ::
        rateRun n cancelAt
          (rateEpoch n (if cancelAt ≤ i0 then cancelBucket s else s) req).1
          (i0 + 1) rest := rfl
    set s1 := (if cancelAt ≤ i0 then cancelBucket s else s) with hs1
    have hs1tok : s1.tokens ≤ n := by
      rw [hs1]
      by_cases hc : cancelAt ≤ i0 <;> simp [hc, cancelBucket, hs]
    have hef := rateEpoch_facts n s1 req hs1tok
    have hnext := ih (rateEpoch n s1 req).1 (i0 + 1) hef.1
    refine ⟨fun pr hpr => ?_, fun j pr hcj hj => ?_⟩
    · rw [hrunEq] at hpr
      rcases List.mem_cons.mp hpr with h1 | h1
      · subst h1
        exact ⟨hef.2.1, hef.2.2.1⟩
      · exact hnext.1 pr h1
    · rw [hrunEq] at hj
      match j, hcj, hj with
      | 0, hcj, hj =>
        rw [List.get?_cons_zero] at hj
        injection hj with hj2
        rw [← hj2]
        have hc : cancelAt ≤ i0 := by omega
        have hs1c : s1.cancelled = true := by
          rw [hs1, if_pos hc]
          rfl
        exact hef.2.2.2 hs1c
      | Nat.succ j2, hcj, hj =>
        rw [List.get?_cons_succ] at hj
        exact hnext.2 j2 pr (by omega) hj

/-- Claim C4: the spec's token bucket emits at most `N` tokens per one-second
epoch — the refill inserts at most `N` and a consumer receives at most `N`,
with no carry-over past capacity — and from the epoch at which its context is
cancelled on, the refill produces zero further tokens. -/
theorem C4_token_bucket_bound (n cancelAt : Nat) (reqs : List Nat)
    (s0 : BucketState) (h0 : s0.tokens ≤ n) :
    (∀ pr ∈ rateRun n cancelAt s0 0 reqs, pr.1 ≤ n ∧ pr.2 ≤ n) ∧
    (∀ j pr, cancelAt ≤ j → (rateRun n cancelAt s0 0 reqs).get? j = some pr →
      pr.1 = 0) := by
  have h := rateRun_facts n cancelAt reqs s0 0 h0
  exact ⟨h.1, fun j pr hc hj => h.2 j pr (by omega) hj⟩

/-- Claim C4 witness: capacity 5, cancellation at epoch 2, demands 7, 3, 1, 9 —
epoch outputs (5,5), (5,3), (0,1), (0,1); every epoch stays within 5 and the
cancelled epochs produce nothing (leftover tokens may still be consumed). -/
theorem C4_token_bucket_bound_witness :
    (0 : Nat) ≤ 5 ∧
    rateRun 5 2 ⟨0, false⟩ 0 [7, 3, 1, 9] = [(5, 5), (5, 3), (0, 1), (0, 1)] ∧
    (∀ pr ∈ rateRun 5 2 ⟨0, false⟩ 0 [7, 3, 1, 9], pr.1 ≤ 5 ∧ pr.2 ≤ 5) ∧
    (∀ j pr, 2 ≤ j → (rateRun 5 2 ⟨0, false⟩ 0 [7, 3, 1, 9]).get? j = some pr →
      pr.1 = 0) := by
  have h := C4_token_bucket_bound 5 2 [7, 3, 1, 9] ⟨0, false⟩ (by decide)
  exact ⟨by decide, by decide, h.1, h.2⟩

end Roles
